import Mathlib

/-!
Shallow embedding of the `merkle` package of the web3sdks go-sdk repository
(file `merkle_tree.go`, a merkletreejs-compatible Merkle tree engine), together
with theorems settling the specification claims about it.

Byte strings are modelled as `List Nat` (each entry a byte value), fallible
operations as `Except String`, and the `crypto/rand` entropy drawn by
`getDummyHash` as an explicit parameter `dummy : Nat → Bytes` giving the value
drawn at each level (one fresh draw per `fixOdd` call on an odd level).
-/

namespace merkle

/-- Byte sequences: the `[]byte` of the source. -/
abbrev Bytes := List Nat

/-- `DataBlock` is the interface of input data blocks: a block is determined by
the result of its `Serialize` method, which may fail. -/
structure DataBlock where
  serialize : Except String Bytes

/-- `HashFuncType` is the signature of the hash functions used for tree generation. -/
abbrev HashFuncType := Bytes → Except String Bytes

/-- `ModeProofGen` is the proof generation configuration mode (iota value 0). -/
def ModeProofGen : Nat := 0

/-- `ModeTreeBuild` is the tree building configuration mode (iota value 1). -/
def ModeTreeBuild : Nat := 1

/-- `ModeProofGenAndTreeBuild` is the proof generation and tree building mode (iota value 2). -/
def ModeProofGenAndTreeBuild : Nat := 2

/-- `Config` is the configuration of the Merkle Tree.  `hashFunc = none` models a
nil `HashFunc` (replaced by `defaultHashFunc` in `New`); `mode` is the Go
`ModeType` integer.  The parallelism knobs (`NumRoutines`) are dead in the
sequential code paths of the source and are omitted. -/
structure Config where
  hashFunc : Option HashFuncType := none
  mode : Nat := 0
  noDuplicates : Bool := false
  sortLeaves : Bool := false
  sortPairs : Bool := false

/-- `Proof` implements the Merkle Tree proof: sibling nodes along the path and
the packed left/right `path` bitfield (a `uint32` in the source, hence all
updates are taken modulo `2 ^ 32`). -/
structure Proof where
  siblings : List Bytes
  path : Nat
deriving DecidableEq

instance : Inhabited Proof := ⟨⟨[], 0⟩⟩

/-- `MerkleTree` is the result of `New`: the (normalized) configuration fields
together with the tree data.  `tree` and `leafMap` are only populated in
`ModeTreeBuild` / `ModeProofGenAndTreeBuild`; `proofs` only in `ModeProofGen` /
`ModeProofGenAndTreeBuild`.  `leafMap` models the `sync.Map` as an association
list in store order (a later `Store` for the same key wins on `Load`). -/
structure MerkleTree where
  hashFunc : HashFuncType
  mode : Nat
  noDuplicates : Bool
  sortLeaves : Bool
  sortPairs : Bool
  tree : List (List Bytes)
  root : Bytes
  leaves : List Bytes
  proofs : List Proof
  depth : Nat
  leafMap : List (Bytes × Nat)

/-! ## SHA-256 (the default hash function)

Modelled from the spec: `defaultHashFunc` itself is not under `src/` (only its
call sites in `New` and `Verify` are); the spec fixes it as "a standard 256-bit
digest", SHA-256, with `defaultHashLen = 32`. -/

/-- Right rotation of a 32-bit word, written arithmetically. -/
def rotr32 (n x : Nat) : Nat := (x / 2 ^ n + x % 2 ^ n * 2 ^ (32 - n)) % 2 ^ 32

/-- Logical right shift of a 32-bit word. -/
def shr32 (n x : Nat) : Nat := x / 2 ^ n

def bigSigma0 (x : Nat) : Nat := rotr32 2 x ^^^ rotr32 13 x ^^^ rotr32 22 x

def bigSigma1 (x : Nat) : Nat := rotr32 6 x ^^^ rotr32 11 x ^^^ rotr32 25 x

def smallSigma0 (x : Nat) : Nat := rotr32 7 x ^^^ rotr32 18 x ^^^ shr32 3 x

def smallSigma1 (x : Nat) : Nat := rotr32 17 x ^^^ rotr32 19 x ^^^ shr32 10 x

def chFn (e f g : Nat) : Nat := (e &&& f) ^^^ ((e ^^^ 0xffffffff) &&& g)

def majFn (a b c : Nat) : Nat := (a &&& b) ^^^ (a &&& c) ^^^ (b &&& c)

/-- The 64 SHA-256 round constants (decimal). -/
def sha256K : List Nat :=
  [1116352408, 1899447441, 3049323471, 3921009573, 961987163, 1508970993,
   2453635748, 2870763221, 3624381080, 310598401, 607225278, 1426881987,
   1925078388, 2162078206, 2614888103, 3248222580, 3835390401, 4022224774,
   264347078, 604807628, 770255983, 1249150122, 1555081692, 1996064986,
   2554220882, 2821834349, 2952996808, 3210313671, 3336571891, 3584528711,
   113926993, 338241895, 666307205, 773529912, 1294757372, 1396182291,
   1695183700, 1986661051, 2177026350, 2456956037, 2730485921, 2820302411,
   3259730800, 3345764771, 3516065817, 3600352804, 4094571909, 275423344,
   430227734, 506948616, 659060556, 883997877, 958139571, 1322822218,
   1537002063, 1747873779, 1955562222, 2024104815, 2227730452, 2361852424,
   2428436474, 2756734187, 3204031479, 3329325298]

/-- The SHA-256 initial hash state (decimal). -/
def sha256H0 : List Nat :=
  [1779033703, 3144134277, 1013904242, 2773480762, 1359893119,
   2600822924, 528734635, 1541459225]

/-- Extend a 16-word block to the 64-word message schedule (48 extension steps). -/
def sha256Extend : Nat → List Nat → List Nat
  | 0, w => w
  | k + 1, w =>
    let i := w.length
    let s0 := smallSigma0 (w.getD (i - 15) 0)
    let s1 := smallSigma1 (w.getD (i - 2) 0)
    sha256Extend k (w ++ [(w.getD (i - 16) 0 + s0 + w.getD (i - 7) 0 + s1) % 2 ^ 32])

/-- One SHA-256 compression round on the eight-word working state. -/
def sha256Round (st : List Nat) (ki wi : Nat) : List Nat :=
  match st with
  | [a, b, c, d, e, f, g, h] =>
    let t1 := (h + bigSigma1 e + chFn e f g + ki + wi) % 2 ^ 32
    let t2 := (bigSigma0 a + majFn a b c) % 2 ^ 32
    [(t1 + t2) % 2 ^ 32, a, b, c, (d + t1) % 2 ^ 32, e, f, g]
  | st => st

/-- Compress one 16-word message block into the hash state. -/
def sha256Compress (h : List Nat) (block : List Nat) : List Nat :=
  let w := sha256Extend 48 block
  let st := (List.zip sha256K w).foldl (fun st p => sha256Round st p.1 p.2) h
  (List.zip h st).map (fun p => (p.1 + p.2) % 2 ^ 32)

/-- Pack bytes into big-endian 32-bit words (the input length is a multiple of 4). -/
def bytesToWords : List Nat → List Nat
  | b0 :: b1 :: b2 :: b3 :: rest =>
    (((b0 * 256 + b1) * 256 + b2) * 256 + b3) :: bytesToWords rest
  | _ => []

/-- Big-endian bytes of a 32-bit word. -/
def wordToBytes (w : Nat) : List Nat :=
  [w / 2 ^ 24 % 256, w / 2 ^ 16 % 256, w / 2 ^ 8 % 256, w % 256]

/-- Big-endian 8-byte encoding of the 64-bit message bit length. -/
def lenBytes64 (n : Nat) : List Nat :=
  [n / 2 ^ 56 % 256, n / 2 ^ 48 % 256, n / 2 ^ 40 % 256, n / 2 ^ 32 % 256,
   n / 2 ^ 24 % 256, n / 2 ^ 16 % 256, n / 2 ^ 8 % 256, n % 256]

/-- SHA-256 padding: append `0x80`, zero bytes to 56 mod 64, then the bit length. -/
def sha256Pad (msg : Bytes) : List Nat :=
  let L := msg.length
  let zeros := (64 - (L + 9) % 64) % 64
  msg ++ [0x80] ++ List.replicate zeros 0 ++ lenBytes64 (L * 8)

/-- Split a word list into 16-word blocks (the padded input is always a
multiple of 16 words long). -/
def chunkWords : List Nat → List (List Nat)
  | w0 :: w1 :: w2 :: w3 :: w4 :: w5 :: w6 :: w7 ::
    w8 :: w9 :: w10 :: w11 :: w12 :: w13 :: w14 :: w15 :: rest =>
    [w0, w1, w2, w3, w4, w5, w6, w7, w8, w9, w10, w11, w12, w13, w14, w15] :: chunkWords rest
  | _ => []

/-- SHA-256 of a byte sequence. -/
def sha256 (msg : Bytes) : Bytes :=
  let blocks := chunkWords (bytesToWords (sha256Pad msg))
  let h := blocks.foldl sha256Compress sha256H0
  (h.map wordToBytes).flatten

/-- Modelled from the spec: the repository's `defaultHashFunc` is not under
`src/` (only its call sites in `New` and `Verify` are); the spec fixes the
default hash as SHA-256.  It never fails. -/
def defaultHashFunc : HashFuncType := fun b => .ok (sha256 b)

/-! ## Leaf generation -/

/-- `bytes.Compare a b < 0`: byte-lexicographic strict order (a strict prefix is
smaller). -/
def bytesLt : Bytes → Bytes → Bool
  | [], [] => false
  | [], _ :: _ => true
  | _ :: _, [] => false
  | a :: as, b :: bs => if a < b then true else if b < a then false else bytesLt as bs

/-- Insert into a `bytesLt`-sorted list (helper for `sortBytesList`). -/
def insertSorted (x : Bytes) : List Bytes → List Bytes
  | [] => [x]
  | y :: ys => if bytesLt y x then y :: insertSorted x ys else x :: y :: ys

/-- Sort a list of byte strings by `bytesLt` (the source uses `sort.Slice`;
since equal keys are byte-identical the resulting value sequence is the same
for any correct sort). -/
def sortBytesList (l : List Bytes) : List Bytes := l.foldr insertSorted []

/-- Sequentially map a fallible function over a list, stopping at the first
error — the shape of every `for` loop with an early `return err` in the source. -/
def exceptMap {α β : Type} (f : α → Except String β) : List α → Except String (List β)
  | [] => .ok []
  | a :: as =>
    match f a with
    | .error e => .error e
    | .ok b =>
      match exceptMap f as with
      | .error e => .error e
      | .ok bs => .ok (b :: bs)

/-- `leafGen`: serialize every block; the raw serialized bytes become the leaf
values directly (the source's "Do not call hash function on leaves!"), sorted
by `bytesLt` when `SortLeaves` is set. -/
def leafGen (sortLvs : Bool) (blocks : List DataBlock) : Except String (List Bytes) :=
  match exceptMap (fun b => b.serialize) blocks with
  | .error e => .error e
  | .ok leaves => .ok (if sortLvs then sortBytesList leaves else leaves)

/-- Fuel-driven floor of log2 (structurally recursive; `fuel = n` always
suffices since the argument at least halves each step). -/
def log2Fuel : Nat → Nat → Nat
  | 0, _ => 0
  | fuel + 1, n => if 2 ≤ n then log2Fuel fuel (n / 2) + 1 else 0

/-- Floor of the base-2 logarithm. -/
def log2Nat (n : Nat) : Nat := log2Fuel n n

/-- `calTreeDepth`: tree depth from the number of blocks.  The source computes
this with float64 `math.Log2` and `math.Trunc`; this embedding uses exact
integer log2, with which the float computation agrees whenever it is exact. -/
def calTreeDepth (blockLen : Nat) : Nat :=
  if 2 ^ log2Nat blockLen = blockLen then log2Nat blockLen else log2Nat blockLen + 1

/-! ## Odd-node fixup and proof bookkeeping -/

/-- `fixOdd`: if the live prefix length `prevLen` of `buf` is odd, append one
node — the `dummy` value (a fresh `getDummyHash` draw) when `NoDuplicates`,
otherwise a duplicate of the previous node — growing `buf` if needed, else
overwriting the stale slot. -/
def fixOdd (noDup : Bool) (dummy : Bytes) (buf : List Bytes) (prevLen : Nat) :
    List Bytes × Nat :=
  if prevLen % 2 = 0 then (buf, prevLen)
  else
    let appendNode := if noDup then dummy else buf.getD (prevLen - 1) []
    if buf.length < prevLen + 1 then (buf ++ [appendNode], prevLen + 1)
    else (buf.set prevLen appendNode, prevLen + 1)

/-- `initProofs`: one empty proof per leaf. -/
def initProofs (numLeaves : Nat) : List Proof := List.replicate numLeaves ⟨[], 0⟩

/-- The left-half update of `updatePairProof`: set path bit `step` (uint32
arithmetic) and record the right element of the pair as sibling. -/
def sibPathUpdate (step : Nat) (sib : Bytes) (p : Proof) : Proof :=
  ⟨p.siblings ++ [sib], (p.path + 2 ^ step % 2 ^ 32) % 2 ^ 32⟩

/-- The right-half update of `updatePairProof`: record the left element of the
pair as sibling, path untouched. -/
def sibUpdate (sib : Bytes) (p : Proof) : Proof :=
  ⟨p.siblings ++ [sib], p.path⟩

/-- Apply `f` to the entries of `ps` with position (counted from `i`) in
`[start, stop)` — the `for i := start; i < stop; i++` slice-mutation loops of
`updatePairProof`. -/
def rangeUpdate (f : Proof → Proof) (start stop : Nat) : Nat → List Proof → List Proof
  | _, [] => []
  | i, p :: ps => (if start ≤ i ∧ i < stop then f p else p) :: rangeUpdate f start stop (i + 1) ps

/-- `updatePairProof`: for the pair at buffer index `idx` spanning `batch`
leaves per node, the left half of the covered leaf range gets path bit `step`
and sibling `buf[idx+1]`; the right half gets sibling `buf[idx]`; both ranges
are clipped to the number of proofs. -/
def updatePairProof (buf : List Bytes) (idx batch step : Nat) (ps : List Proof) : List Proof :=
  let start := idx * batch
  let stop := min (start + batch) ps.length
  let ps1 := rangeUpdate (sibPathUpdate step (buf.getD (idx + 1) [])) start stop 0 ps
  let start2 := start + batch
  let stop2 := min (start2 + batch) ps1.length
  rangeUpdate (sibUpdate (buf.getD idx [])) start2 stop2 0 ps1

/-- The pair start indices `0, 2, 4, …` below `bufLen`
(the `for idx := 0; idx < bufLen; idx += 2` loops). -/
def pairIndices (bufLen : Nat) : List Nat := (List.range ((bufLen + 1) / 2)).map (· * 2)

/-- `updateProofs`: run `updatePairProof` over every pair of the level buffer,
with `batch = 2 ^ step`. -/
def updateProofs (buf : List Bytes) (bufLen step : Nat) (ps : List Proof) : List Proof :=
  (pairIndices bufLen).foldl (fun ps i => updatePairProof buf i (2 ^ step) step ps) ps

/-! ## Streaming proof generation (`proofGen`) -/

/-- The in-place pair hashing loop of `proofGen`:
`buf[idx>>1] = HashFunc(buf[idx] ++ buf[idx+1])` for each pair index. -/
def hashPairsGo (hf : HashFuncType) : List Nat → List Bytes → Except String (List Bytes)
  | [], buf => .ok buf
  | idx :: rest, buf =>
    match hf (buf.getD idx [] ++ buf.getD (idx + 1) []) with
    | .error e => .error e
    | .ok h => hashPairsGo hf rest (buf.set (idx / 2) h)

def hashPairs (hf : HashFuncType) (prevLen : Nat) (buf : List Bytes) :
    Except String (List Bytes) :=
  hashPairsGo hf (pairIndices prevLen) buf

/-- The `for step := 1; step < int(m.Depth); step++` loop of `proofGen`:
`fuel` is the number of remaining iterations, `step` the current step number. -/
def proofGenLoop (hf : HashFuncType) (noDup : Bool) (dummy : Nat → Bytes) :
    Nat → Nat → List Bytes → Nat → List Proof →
    Except String (List Bytes × Nat × List Proof)
  | _, 0, buf, prevLen, ps => .ok (buf, prevLen, ps)
  | step, fuel + 1, buf, prevLen, ps =>
    match hashPairs hf prevLen buf with
    | .error e => .error e
    | .ok buf =>
      match fixOdd noDup (dummy step) buf (prevLen / 2) with
      | (buf, prevLen) =>
        proofGenLoop hf noDup dummy (step + 1) fuel buf prevLen
          (updateProofs buf prevLen step ps)

/-- `proofGen`: streaming proof generation for `ModeProofGen`.  Note that the
level-0 `updateProofs` call is made with `numLeaves` (not the fixed-up
`prevLen`), exactly as in the source, and that — unlike `treeBuild` — the pair
hashing never checks for byte-identical pairs. -/
def proofGen (hf : HashFuncType) (noDup : Bool) (dummy : Nat → Bytes)
    (leaves : List Bytes) (depth : Nat) : Except String (Bytes × List Proof) :=
  let numLeaves := leaves.length
  let ps := initProofs numLeaves
  match fixOdd noDup (dummy 0) leaves numLeaves with
  | (buf, prevLen) =>
    let ps := updateProofs buf numLeaves 0 ps
    match proofGenLoop hf noDup dummy 1 (depth - 1) buf prevLen ps with
    | .error e => .error e
    | .ok (buf, _, ps) =>
      match hf (buf.getD 0 [] ++ buf.getD 1 []) with
      | .error e => .error e
      | .ok root => .ok (root, ps)

/-! ## Tree building (`treeBuild`) -/

/-- Combine one pair in `treeBuild`: byte-identical pairs are propagated
unhashed (the merkletreejs duplicate rule); otherwise the pair is hashed,
sorted first when `SortPairs`. -/
def combinePair (hf : HashFuncType) (sp : Bool) (a b : Bytes) : Except String Bytes :=
  if a = b then .ok a
  else if sp then (if bytesLt a b then hf (a ++ b) else hf (b ++ a))
  else hf (a ++ b)

/-- Build the next tree level from the `prevLen`-long current level. -/
def buildNextLevel (hf : HashFuncType) (sp : Bool) (lvl : List Bytes) (prevLen : Nat) :
    Except String (List Bytes) :=
  exceptMap (fun j => combinePair hf sp (lvl.getD j []) (lvl.getD (j + 1) []))
    (pairIndices prevLen)

/-- The `for i := 0; i < m.Depth-1; i++` loop of `treeBuild`: build the
remaining `r` levels above level `i` (whose fixed-up buffer is `lvl` of live
length `prevLen`), each followed by its own `fixOdd`. -/
def treeLevelsFrom (hf : HashFuncType) (sp noDup : Bool) (dummy : Nat → Bytes) :
    Nat → Nat → List Bytes → Nat → Except String (List (List Bytes))
  | _, 0, _, _ => .ok []
  | i, r + 1, lvl, prevLen =>
    match buildNextLevel hf sp lvl prevLen with
    | .error e => .error e
    | .ok next =>
      match fixOdd noDup (dummy (i + 1)) next next.length with
      | (next, prevLen) =>
        match treeLevelsFrom hf sp noDup dummy (i + 1) r next prevLen with
        | .error e => .error e
        | .ok rest => .ok (next :: rest)

/-- The leaf-hash → index map population: `m.leafMap.Store(string(leaf), i)`
for every (un-padded) leaf, in order. -/
def storeLeafMap (leaves : List Bytes) : List (Bytes × Nat) :=
  (List.range leaves.length).map (fun i => (leaves.getD i [], i))

/-- `sync.Map.Load`: the last `Store` for a key wins. -/
def mapLoad (m : List (Bytes × Nat)) (k : Bytes) : Option Nat :=
  match m.reverse.find? (fun p => p.1 == k) with
  | none => none
  | some p => some p.2

/-- `treeBuild`: materialize all levels (level 0 is the fixed-up leaf layer),
hash the top two nodes into the root, and build the leaf index map. -/
def treeBuild (hf : HashFuncType) (sp noDup : Bool) (dummy : Nat → Bytes)
    (leaves : List Bytes) (depth : Nat) :
    Except String (List (List Bytes) × Bytes × List (Bytes × Nat)) :=
  match fixOdd noDup (dummy 0) leaves leaves.length with
  | (lvl0, prevLen) =>
    match treeLevelsFrom hf sp noDup dummy 0 (depth - 1) lvl0 prevLen with
    | .error e => .error e
    | .ok rest =>
      let tree := lvl0 :: rest
      let last := tree.getD (depth - 1) []
      match hf (last.getD 0 [] ++ last.getD 1 []) with
      | .error e => .error e
      | .ok root => .ok (tree, root, storeLeafMap leaves)

/-- The `ModeProofGenAndTreeBuild` streaming pass: `updateProofs(tree[i],
len(tree[i]), i)` over every materialized level. -/
def updateProofsAll : List (List Bytes) → Nat → List Proof → List Proof
  | [], _, ps => ps
  | lvl :: rest, i, ps => updateProofsAll rest (i + 1) (updateProofs lvl lvl.length i ps)

/-! ## `New` -/

/-- `New` generates a new Merkle Tree with the specified configuration.  `dummy`
supplies the `crypto/rand` value drawn by `getDummyHash` at each level.  The
source's `if config.Mode == 0 then config.Mode = ModeProofGen` is the identity
(since `ModeProofGen` is 0) and is therefore not re-modelled. -/
def New (config : Option Config) (blocks : List DataBlock) (dummy : Nat → Bytes) :
    Except String MerkleTree :=
  if blocks.length ≤ 1 then .error "the number of data blocks must be greater than 1"
  else
    let cfg := config.getD {}
    let hf := cfg.hashFunc.getD defaultHashFunc
    let depth := calTreeDepth blocks.length
    match leafGen cfg.sortLeaves blocks with
    | .error e => .error e
    | .ok leaves =>
      if cfg.mode = ModeProofGen then
        match proofGen hf cfg.noDuplicates dummy leaves depth with
        | .error e => .error e
        | .ok (root, ps) =>
          .ok { hashFunc := hf, mode := cfg.mode, noDuplicates := cfg.noDuplicates,
                sortLeaves := cfg.sortLeaves, sortPairs := cfg.sortPairs,
                tree := [], root := root, leaves := leaves, proofs := ps,
                depth := depth, leafMap := [] }
      else if cfg.mode = ModeTreeBuild then
        match treeBuild hf cfg.sortPairs cfg.noDuplicates dummy leaves depth with
        | .error e => .error e
        | .ok (tree, root, lm) =>
          .ok { hashFunc := hf, mode := cfg.mode, noDuplicates := cfg.noDuplicates,
                sortLeaves := cfg.sortLeaves, sortPairs := cfg.sortPairs,
                tree := tree, root := root, leaves := leaves, proofs := [],
                depth := depth, leafMap := lm }
      else if cfg.mode = ModeProofGenAndTreeBuild then
        match treeBuild hf cfg.sortPairs cfg.noDuplicates dummy leaves depth with
        | .error e => .error e
        | .ok (tree, root, lm) =>
          .ok { hashFunc := hf, mode := cfg.mode, noDuplicates := cfg.noDuplicates,
                sortLeaves := cfg.sortLeaves, sortPairs := cfg.sortPairs,
                tree := tree, root := root, leaves := leaves,
                proofs := updateProofsAll tree 0 (initProofs leaves.length),
                depth := depth, leafMap := lm }
      else .error "invalid configuration mode"

/-! ## Verification -/

/-- The sibling replay loop of `Verify`: inspect the low path bit, combine,
shift right. -/
def verifyLoop (hf : HashFuncType) : List Bytes → Nat → Bytes → Except String Bytes
  | [], _, h => .ok h
  | n :: rest, path, h =>
    match (if path % 2 = 1 then hf (h ++ n) else hf (n ++ h)) with
    | .error e => .error e
    | .ok h => verifyLoop hf rest (path / 2) h

/-- `Verify` verifies the data block with the Merkle Tree proof and root hash.
Note that the source hashes the serialized block before replaying the siblings
(`hash, err = hashFunc(data)`), although the tree's leaves are the raw
serialized bytes. -/
def Verify (dataBlock : Option DataBlock) (proof : Option Proof) (root : Bytes)
    (hashFunc : Option HashFuncType) : Except String Bool :=
  match dataBlock with
  | none => .error "data block is nil"
  | some b =>
    match proof with
    | none => .error "proof is nil"
    | some p =>
      let hf := hashFunc.getD defaultHashFunc
      match b.serialize with
      | .error e => .error e
      | .ok data =>
        match hf data with
        | .error e => .error e
        | .ok hash =>
          match verifyLoop hf p.siblings p.path hash with
          | .error e => .error e
          | .ok final => .ok (final == root)

/-! ## Indexed proof generation (`GenerateProof`) -/

/-- The level walk of `GenerateProof`: at level `i`, an odd index takes the left
neighbour as sibling (path bit 0), an even index sets path bit `i` (uint32
arithmetic) and takes the right neighbour; then the index is halved. -/
def proofWalkAux (tree : List (List Bytes)) :
    Nat → Nat → Nat → Nat → List Bytes → Nat × List Bytes
  | _, 0, _, path, sibs => (path, sibs)
  | i, fuel + 1, idx, path, sibs =>
    if idx % 2 = 1 then
      proofWalkAux tree (i + 1) fuel (idx / 2) path
        (sibs ++ [(tree.getD i []).getD (idx - 1) []])
    else
      proofWalkAux tree (i + 1) fuel (idx / 2) ((path + 2 ^ i % 2 ^ 32) % 2 ^ 32)
        (sibs ++ [(tree.getD i []).getD (idx + 1) []])

def proofWalk (tree : List (List Bytes)) (depth idx : Nat) : Proof :=
  let r := proofWalkAux tree 0 depth idx 0 []
  ⟨r.2, r.1⟩

/-- `GenerateProof`: only available after `treeBuild`; serializes the block,
hashes it (exactly as the source does — although `leafMap` is keyed by the raw
leaf bytes), looks the digest up in `leafMap` and walks the levels. -/
def generateProof (m : MerkleTree) (b : DataBlock) : Except String Proof :=
  if m.mode ≠ ModeTreeBuild ∧ m.mode ≠ ModeProofGenAndTreeBuild then
    .error "merkle Tree is not in built, could not generate proof by this method"
  else
    match b.serialize with
    | .error e => .error e
    | .ok blockByte =>
      match m.hashFunc blockByte with
      | .error e => .error e
      | .ok blockHash =>
        match mapLoad m.leafMap blockHash with
        | none => .error "data block is not a member of the Merkle Tree"
        | some idx => .ok (proofWalk m.tree m.depth idx)

/-! ## Spec-side descriptions of the verification algorithm -/

/-- The sibling replay written with absolute bit positions, following the
spec's wording for `Verify`: at step `i`, bit `i` of `path` decides the
combination order ("least significant bit first, shifting right after each
step"). -/
def verifyBitAcc (hf : HashFuncType) (path : Nat) :
    Nat → List Bytes → Bytes → Except String Bytes
  | _, [], acc => .ok acc
  | i, sib :: rest, acc =>
    match (if path.testBit i then hf (acc ++ sib) else hf (sib ++ acc)) with
    | .error e => .error e
    | .ok acc => verifyBitAcc hf path (i + 1) rest acc

/-- The verification algorithm exactly as claim C2 words it: the accumulator is
initialised to the block's serialized bytes with NO hashing applied, then the
siblings are replayed and the result compared to the root.  Written from the
claim's words, for comparison with `Verify`. -/
def verifyClaimC2 (b : DataBlock) (p : Proof) (root : Bytes) (hf : HashFuncType) :
    Except String Bool :=
  match b.serialize with
  | .error e => .error e
  | .ok data =>
    match verifyBitAcc hf p.path 0 p.siblings data with
    | .error e => .error e
    | .ok final => .ok (final == root)

/-- The verification algorithm as the amended claim C2 describes it: the
accumulator starts as `hashFunc` applied to the block's serialized bytes (which
is what the code does); then each sibling is combined according to the
corresponding path bit, and the final accumulator is compared with `root` by
exact byte equality.  Written from the amended claim's words, for comparison
with `Verify`. -/
def verifySpecC2 (b : DataBlock) (p : Proof) (root : Bytes) (hf : HashFuncType) :
    Except String Bool :=
  match b.serialize with
  | .error e => .error e
  | .ok data =>
    match hf data with
    | .error e => .error e
    | .ok acc =>
      match verifyBitAcc hf p.path 0 p.siblings acc with
      | .error e => .error e
      | .ok final => .ok (final == root)

/-! ## Proof-bookkeeping helpers (used only by the shape lemmas) -/

/-- Indexing helper for proof lists (default: the empty proof). -/
def nth (ps : List Proof) (k : Nat) : Proof := ps.getD k ⟨[], 0⟩

/-- The pair loop of `updateProofs` as a count-down recursion: `pairFold buf b
step K ps` applies `updatePairProof` for the pair indices `0*2, 1*2, …, (K-1)*2`
with batch `b`. -/
def pairFold (buf : List Bytes) (b step : Nat) : Nat → List Proof → List Proof
  | 0, ps => ps
  | k + 1, ps => updatePairProof buf (k * 2) b step (pairFold buf b step k ps)

/-- Every level in the list has even length and covers all `n` leaves
(`length * 2 ^ levelIndex ≥ n`), counting levels from `i`. -/
def chainOK (n : Nat) : Nat → List (List Bytes) → Prop
  | _, [] => True
  | i, lvl :: rest => lvl.length % 2 = 0 ∧ n ≤ lvl.length * 2 ^ i ∧ chainOK n (i + 1) rest

/-! ## Concrete instances used by the claim theorems -/

/-- A small total test hash: one byte, the sum of the input bytes plus the
input length, mod 256. -/
def tHash : HashFuncType := fun b => .ok [(b.foldl (· + ·) 0 + b.length) % 256]

/-- SHA-256 as a `HashFuncType`. -/
def sha256F : HashFuncType := fun b => .ok (sha256 b)

/-- A fixed entropy source: every `getDummyHash` draw is 32 zero bytes. -/
def dZero : Nat → Bytes := fun _ => List.replicate 32 0

/-- An entropy source whose every draw is the byte `0x05`. -/
def dFive : Nat → Bytes := fun _ => [5]

/-- An entropy source whose every draw is the byte `0x09`. -/
def dNine : Nat → Bytes := fun _ => [9]

/-- A data block serializing to the single byte `0x00`. -/
def blkA : DataBlock := ⟨.ok [0]⟩

/-- A data block serializing to the single byte `0x01`. -/
def blkB1 : DataBlock := ⟨.ok [1]⟩

/-- A data block serializing to the single byte `0x02`. -/
def blkC1 : DataBlock := ⟨.ok [2]⟩

/-- A data block serializing to the single byte `0x04`. -/
def blkB4 : DataBlock := ⟨.ok [4]⟩

/-- A data block whose serialization fails. -/
def badBlk : DataBlock := ⟨.error "serialization failed"⟩

/-- The block "a" (0x61). -/
def blkLa : DataBlock := ⟨.ok [97]⟩

/-- The block "b" (0x62). -/
def blkLb : DataBlock := ⟨.ok [98]⟩

/-- The block "c" (0x63). -/
def blkLc : DataBlock := ⟨.ok [99]⟩

/-- The block "d" (0x64). -/
def blkLd : DataBlock := ⟨.ok [100]⟩

/-! ## Claim theorems: concrete evaluations -/

/-- C1: the round-trip property fails on the code.  For the two blocks `0x00`,
`0x01` under `ModeProofGen` with the test hash, `Verify` on block `0x00`, its
generated proof and the tree's root returns `false`: `Verify` hashes the
serialized block before replaying the siblings although the tree's leaves are
the raw serialized bytes.  Replaying the same proof with the raw leaf bytes as
initial accumulator (the spec's algorithm, `verifyClaimC2`) returns `true`,
confirming the proof itself is the one the claim intends. -/
theorem C1_roundtrip_bug :
    (New (some { hashFunc := some tHash, mode := ModeProofGen }) [blkA, blkB1] dZero).bind
        (fun t => Verify (some blkA) (some (t.proofs.getD 0 default)) t.root (some tHash)) =
      .ok false ∧
    (New (some { hashFunc := some tHash, mode := ModeProofGen }) [blkA, blkB1] dZero).bind
        (fun t => verifyClaimC2 blkA (t.proofs.getD 0 default) t.root tHash) =
      .ok true :=
  ⟨rfl, rfl⟩

/-- C2 (counterexample): `Verify` does not implement the claimed algorithm.
For block `0x00`, an empty-sibling proof and root `[0x00]`, the claimed
algorithm (accumulator = raw serialized bytes, `verifyClaimC2`) returns `true`,
but `Verify` returns `false`, because the code initialises the accumulator to
`hashFunc(serialized bytes)`. -/
theorem C2_counterexample :
    Verify (some blkA) (some ⟨[], 0⟩) [0] (some tHash) = .ok false ∧
    verifyClaimC2 blkA ⟨[], 0⟩ [0] tHash = .ok true :=
  ⟨rfl, rfl⟩

/-- C3 (counterexample): duplicate pairs are NOT propagated in every mode.  For
blocks `{0x00, 0x01, 0x02}` with the duplication policy, `ModeProofGen` hashes
the duplicated pair — its root is `hash(hash(A++B) ++ hash(C++C)) = [11]` —
while the propagating `treeBuild` (`ModeTreeBuild`) yields
`hash(hash(A++B) ++ C) = [7]`, the value the claim prescribes for every mode. -/
theorem C3_counterexample :
    (New (some { hashFunc := some tHash, mode := ModeProofGen }) [blkA, blkB1, blkC1] dZero).map
        (fun t => t.root) = .ok [11] ∧
    (New (some { hashFunc := some tHash, mode := ModeTreeBuild }) [blkA, blkB1, blkC1] dZero).map
        (fun t => t.root) = .ok [7] ∧
    ([11] : Bytes) ≠ [7] :=
  ⟨rfl, rfl, by decide⟩

/-- C4: the streaming/indexed equivalence fails on the code.  For blocks
`{0x00, 0x04}` in `ModeProofGenAndTreeBuild`, the streaming path stores the
proof `⟨[[0x04]], 1⟩` for block `0x00`, but `GenerateProof` on the same tree
returns a not-found error for that very block: it hashes the serialized block
before the `leafMap` lookup although the map is keyed by the raw leaf bytes. -/
theorem C4_bug :
    (New (some { hashFunc := some tHash, mode := ModeProofGenAndTreeBuild }) [blkA, blkB4] dZero).map
        (fun t => t.proofs.getD 0 default) = .ok ⟨[[4]], 1⟩ ∧
    (New (some { hashFunc := some tHash, mode := ModeProofGenAndTreeBuild }) [blkA, blkB4] dZero).bind
        (fun t => generateProof t blkA) =
      .error "data block is not a member of the Merkle Tree" :=
  ⟨rfl, rfl⟩

/-- C5: `GenerateProof` does not succeed for every block whose leaf is in the
tree.  For blocks `{0x00, 0x04}` in `ModeTreeBuild`, the leaf `[0x00]` is in
the tree's leaf layer, yet `GenerateProof` for block `0x00` returns the
not-found error: the code looks up `hashFunc(serialized bytes)` in a map keyed
by the raw leaf bytes. -/
theorem C5_bug :
    (New (some { hashFunc := some tHash, mode := ModeTreeBuild }) [blkA, blkB4] dZero).map
        (fun t => t.leaves) = .ok [[0], [4]] ∧
    (New (some { hashFunc := some tHash, mode := ModeTreeBuild }) [blkA, blkB4] dZero).bind
        (fun t => generateProof t blkA) =
      .error "data block is not a member of the Merkle Tree" :=
  ⟨rfl, rfl⟩

/-- C7 (counterexample): `New` can fail even with two blocks and a recognized
mode — a failing block serialization also aborts construction — so the claimed
"exactly when" equivalence is false as stated. -/
theorem C7_counterexample :
    New (some { hashFunc := some tHash, mode := ModeProofGen }) [badBlk, blkB1] dZero =
      .error "serialization failed" ∧
    ¬([badBlk, blkB1].length ≤ 1) ∧
    ({ hashFunc := some tHash, mode := ModeProofGen } : Config).mode = ModeProofGen :=
  ⟨rfl, by decide, rfl⟩

/-- C8 (counterexample): in the concrete four-block scenario the proof for "a"
has `Path = 3`, not `0`: the code sets the path bit at levels where the leaf's
ancestor sits on the LEFT of its pair, and "a" is on the left at both levels. -/
theorem C8_counterexample :
    (New (some { hashFunc := some sha256F, mode := ModeProofGenAndTreeBuild })
        [blkLa, blkLb, blkLc, blkLd] dZero).map (fun t => (t.proofs.getD 0 default).path) =
      .ok 3 ∧
    (3 : Nat) ≠ 0 :=
  ⟨rfl, by decide⟩

set_option maxRecDepth 100000 in
/-- C8 (amended): for blocks ["a","b","c","d"] with SHA-256, no sorting and the
duplication policy, the leaf layer is [a,b,c,d], level 1 is
[H(a++b), H(c++d)], the root is H(level1[0] ++ level1[1]), and the proof for
"a" has siblings [b, level1[1]] and path 3 (bit set at both levels, since "a"
and H(a++b) both sit on the left of their pairs). -/
theorem C8_amended_thm :
    (New (some { hashFunc := some sha256F, mode := ModeProofGenAndTreeBuild })
        [blkLa, blkLb, blkLc, blkLd] dZero).map
        (fun t => (t.tree.getD 0 [], t.tree.getD 1 [], t.root, t.proofs.getD 0 default)) =
      .ok ([[97], [98], [99], [100]],
           [sha256 ([97] ++ [98]), sha256 ([99] ++ [100])],
           sha256 (sha256 ([97] ++ [98]) ++ sha256 ([99] ++ [100])),
           ⟨[[98], sha256 ([99] ++ [100])], 3⟩) :=
  rfl

/-! ## C2: the verification algorithm, amended -/

/-- The low-bit/shift loop of `Verify` agrees with the absolute-bit-position
replay: consuming the siblings against `path / 2 ^ i` is the same as testing
bits `i, i+1, …` of `path`. -/
theorem verifyLoop_eq_bitAcc (hf : HashFuncType) :
    ∀ (sibs : List Bytes) (i path : Nat) (acc : Bytes),
      verifyLoop hf sibs (path / 2 ^ i) acc = verifyBitAcc hf path i sibs acc := by
  intro sibs
  induction sibs with
  | nil => intro i path acc; rfl
  | cons sib rest ih =>
    intro i path acc
    have hdiv : path / 2 ^ i / 2 = path / 2 ^ (i + 1) := by
      rw [Nat.div_div_eq_div_mul, pow_succ]
    have hbit : path.testBit i = decide (path / 2 ^ i % 2 = 1) :=
      Nat.testBit_to_div_mod
    have hcond : (if path.testBit i then hf (acc ++ sib) else hf (sib ++ acc))
        = (if path / 2 ^ i % 2 = 1 then hf (acc ++ sib) else hf (sib ++ acc)) := by
      rw [hbit]
      by_cases h : path / 2 ^ i % 2 = 1 <;> simp [h]
    show (match (if path / 2 ^ i % 2 = 1 then hf (acc ++ sib) else hf (sib ++ acc)) with
          | Except.error e => Except.error e
          | Except.ok h => verifyLoop hf rest (path / 2 ^ i / 2) h) =
         (match (if path.testBit i then hf (acc ++ sib) else hf (sib ++ acc)) with
          | Except.error e => Except.error e
          | Except.ok acc => verifyBitAcc hf path (i + 1) rest acc)
    rw [hcond, hdiv]
    cases (if path / 2 ^ i % 2 = 1 then hf (acc ++ sib) else hf (sib ++ acc)) with
    | error e => rfl
    | ok acc => exact ih (i + 1) path acc

/-- C2 (amended): `Verify` computes its result by the claimed algorithm with
one correction — the accumulator is initialised to `hashFunc` applied to the
block's serialized bytes (not to the raw serialized bytes); then for each
sibling in order the accumulator is combined according to the path bit
(least significant first), and the result is exact byte equality of the final
accumulator with the root (`verifySpecC2`). -/
theorem C2_amended_thm (b : DataBlock) (p : Proof) (root : Bytes) (hf : HashFuncType) :
    Verify (some b) (some p) root (some hf) = verifySpecC2 b p root hf := by
  show (match b.serialize with
        | Except.error e => Except.error e
        | Except.ok data =>
          match hf data with
          | Except.error e => Except.error e
          | Except.ok hash =>
            match verifyLoop hf p.siblings p.path hash with
            | Except.error e => Except.error e
            | Except.ok final => Except.ok (final == root)) =
       (match b.serialize with
        | Except.error e => Except.error e
        | Except.ok data =>
          match hf data with
          | Except.error e => Except.error e
          | Except.ok acc =>
            match verifyBitAcc hf p.path 0 p.siblings acc with
            | Except.error e => Except.error e
            | Except.ok final => Except.ok (final == root))
  cases b.serialize with
  | error e => rfl
  | ok data =>
    show (match hf data with
          | Except.error e => Except.error e
          | Except.ok hash =>
            match verifyLoop hf p.siblings p.path hash with
            | Except.error e => Except.error e
            | Except.ok final => Except.ok (final == root)) =
         (match hf data with
          | Except.error e => Except.error e
          | Except.ok acc =>
            match verifyBitAcc hf p.path 0 p.siblings acc with
            | Except.error e => Except.error e
            | Except.ok final => Except.ok (final == root))
    cases hf data with
    | error e => rfl
    | ok h0 =>
      have h := verifyLoop_eq_bitAcc hf p.siblings 0 p.path h0
      rw [pow_zero, Nat.div_one] at h
      show (match verifyLoop hf p.siblings p.path h0 with
            | Except.error e => Except.error e
            | Except.ok final => Except.ok (final == root)) =
           (match verifyBitAcc hf p.path 0 p.siblings h0 with
            | Except.error e => Except.error e
            | Except.ok final => Except.ok (final == root))
      rw [h]

/-! ## C3: duplicate-pair propagation in treeBuild (amended) -/

/-- `exceptMap` success characterization: each output position is the image of
the corresponding input position. -/
theorem exceptMap_nth {α β : Type} (f : α → Except String β) (da : α) (db : β) :
    ∀ (l : List α) (out : List β), exceptMap f l = .ok out →
      ∀ j, j < l.length → f (l.getD j da) = .ok (out.getD j db) := by
  intro l
  induction l with
  | nil => intro out _ j hj; exact absurd hj (by simp)
  | cons a as ih =>
    intro out h j hj
    cases hfa : f a with
    | error e =>
      simp only [exceptMap, hfa] at h
      exact Except.noConfusion h
    | ok b =>
      cases hrec : exceptMap f as with
      | error e =>
        simp only [exceptMap, hfa, hrec] at h
        exact Except.noConfusion h
      | ok bs =>
        simp only [exceptMap, hfa, hrec] at h
        cases h
        cases j with
        | zero => exact hfa
        | succ j => exact ih bs hrec j (by simpa using hj)

/-- The `m`-th pair start index is `m * 2`. -/
theorem pairIndices_getD (bufLen m : Nat) (h : m < (bufLen + 1) / 2) :
    (pairIndices bufLen).getD m 0 = m * 2 := by
  have hlen : m < (pairIndices bufLen).length := by
    simpa [pairIndices] using h
  rw [List.getD_eq_getElem _ _ hlen]
  simp [pairIndices]

/-- C3 (amended): the duplicate-propagation rule holds for the `treeBuild`
construction (modes `ModeTreeBuild` and `ModeProofGenAndTreeBuild`): whenever
the pair at even position `j` of a level is byte-identical, the parent entry is
that value unhashed; and concretely the tree built from leaves
`{[0],[1],[2]}` with the duplication policy has level 1 `[hash(A,B), C]`.
(`ModeProofGen`'s streaming build has no such rule, see the counterexample.) -/
theorem C3_amended_thm :
    (∀ (hf : HashFuncType) (sp : Bool) (lvl : List Bytes) (prevLen j : Nat) (out : List Bytes),
        buildNextLevel hf sp lvl prevLen = .ok out → j % 2 = 0 → j < prevLen →
        lvl.getD j [] = lvl.getD (j + 1) [] →
        out.getD (j / 2) [] = lvl.getD j []) ∧
    (New (some { hashFunc := some tHash, mode := ModeTreeBuild }) [blkA, blkB1, blkC1] dZero).map
        (fun t => t.tree.getD 1 []) = .ok [[3], [2]] := by
  constructor
  · intro hf sp lvl prevLen j out hout hj2 hjlt heq
    simp only [buildNextLevel] at hout
    have hj : j / 2 < (pairIndices prevLen).length := by
      simp only [pairIndices, List.length_map, List.length_range]
      omega
    have hnth := exceptMap_nth _ 0 [] _ out hout (j / 2)
      (by simpa [pairIndices] using hj)
    rw [pairIndices_getD _ _ (by simpa [pairIndices] using hj)] at hnth
    have hjj : j / 2 * 2 = j := by omega
    rw [hjj] at hnth
    rw [combinePair, if_pos heq] at hnth
    injection hnth with h
    exact h.symm
  · rfl

/-- C3 (witness): instantiating the propagation rule on the fixed-up leaf level
`[[0],[1],[2],[2]]` of the `{A,B,C}` tree: the pair at position 2 is identical,
and the built level-1 entry above it is `[2]` unhashed. -/
theorem C3_witness :
    buildNextLevel tHash false [[0], [1], [2], [2]] 4 = Except.ok [[3], [2]] ∧
    ([[3], [2]] : List Bytes).getD 1 [] = [2] := by
  refine ⟨rfl, ?_⟩
  have h := C3_amended_thm.1 tHash false [[0], [1], [2], [2]] 4 2 [[3], [2]]
    rfl (by decide) (by decide) (by decide)
  exact h

/-! ## C7: construction failures (amended) -/

/-- If the hash never fails, the pair-hashing loop never fails. -/
theorem hashPairsGo_ok (hf : HashFuncType) (hhf : ∀ x, ∃ y, hf x = .ok y) :
    ∀ (l : List Nat) (buf : List Bytes), ∃ out, hashPairsGo hf l buf = .ok out := by
  intro l
  induction l with
  | nil => intro buf; exact ⟨buf, rfl⟩
  | cons idx rest ih =>
    intro buf
    obtain ⟨y, hy⟩ := hhf (buf.getD idx [] ++ buf.getD (idx + 1) [])
    obtain ⟨out, hout⟩ := ih (buf.set (idx / 2) y)
    refine ⟨out, ?_⟩
    simp only [hashPairsGo, hy]
    exact hout

/-- If the hash never fails, the `proofGen` level loop never fails. -/
theorem proofGenLoop_ok (hf : HashFuncType) (hhf : ∀ x, ∃ y, hf x = .ok y)
    (noDup : Bool) (dummy : Nat → Bytes) :
    ∀ (fuel step : Nat) (buf : List Bytes) (prevLen : Nat) (ps : List Proof),
      ∃ out, proofGenLoop hf noDup dummy step fuel buf prevLen ps = .ok out := by
  intro fuel
  induction fuel with
  | zero => intro step buf prevLen ps; exact ⟨_, rfl⟩
  | succ fuel ih =>
    intro step buf prevLen ps
    obtain ⟨buf1, hb⟩ := hashPairsGo_ok hf hhf (pairIndices prevLen) buf
    rcases hfix : fixOdd noDup (dummy step) buf1 (prevLen / 2) with ⟨buf2, pl2⟩
    obtain ⟨out, hout⟩ := ih (step + 1) buf2 pl2 (updateProofs buf2 pl2 step ps)
    refine ⟨out, ?_⟩
    simp only [proofGenLoop, hashPairs, hb, hfix]
    exact hout

/-- If every list element maps successfully, `exceptMap` succeeds. -/
theorem exceptMap_ok {α β : Type} (f : α → Except String β) :
    ∀ l : List α, (∀ a ∈ l, ∃ b, f a = .ok b) → ∃ out, exceptMap f l = .ok out := by
  intro l
  induction l with
  | nil => intro _; exact ⟨[], rfl⟩
  | cons a as ih =>
    intro h
    obtain ⟨b, hb⟩ := h a (by simp)
    obtain ⟨bs, hbs⟩ := ih (fun x hx => h x (by simp [hx]))
    refine ⟨b :: bs, ?_⟩
    simp only [exceptMap, hb, hbs]

/-- If the hash never fails, combining a pair never fails. -/
theorem combinePair_ok (hf : HashFuncType) (hhf : ∀ x, ∃ y, hf x = .ok y)
    (sp : Bool) (a b : Bytes) : ∃ c, combinePair hf sp a b = .ok c := by
  rw [combinePair]
  split_ifs
  · exact ⟨a, rfl⟩
  · exact hhf _
  · exact hhf _
  · exact hhf _

/-- If the hash never fails, building the upper levels never fails. -/
theorem treeLevelsFrom_ok (hf : HashFuncType) (hhf : ∀ x, ∃ y, hf x = .ok y)
    (sp noDup : Bool) (dummy : Nat → Bytes) :
    ∀ (r i : Nat) (lvl : List Bytes) (prevLen : Nat),
      ∃ out, treeLevelsFrom hf sp noDup dummy i r lvl prevLen = .ok out := by
  intro r
  induction r with
  | zero => intro i lvl prevLen; exact ⟨[], rfl⟩
  | succ r ih =>
    intro i lvl prevLen
    obtain ⟨next, hn⟩ := exceptMap_ok
      (fun j => combinePair hf sp (lvl.getD j []) (lvl.getD (j + 1) [])) (pairIndices prevLen)
      (fun j _ => combinePair_ok hf hhf sp (lvl.getD j []) (lvl.getD (j + 1) []))
    rcases hfix : fixOdd noDup (dummy (i + 1)) next next.length with ⟨next2, pl2⟩
    obtain ⟨rest, hrest⟩ := ih (i + 1) next2 pl2
    refine ⟨next2 :: rest, ?_⟩
    simp only [treeLevelsFrom, buildNextLevel, hn, hfix, hrest]

/-- If the hash never fails, `treeBuild` never fails. -/
theorem treeBuild_ok (hf : HashFuncType) (hhf : ∀ x, ∃ y, hf x = .ok y)
    (sp noDup : Bool) (dummy : Nat → Bytes) (leaves : List Bytes) (depth : Nat) :
    ∃ out, treeBuild hf sp noDup dummy leaves depth = .ok out := by
  rcases hfix : fixOdd noDup (dummy 0) leaves leaves.length with ⟨lvl0, pl⟩
  obtain ⟨rest, hrest⟩ := treeLevelsFrom_ok hf hhf sp noDup dummy (depth - 1) 0 lvl0 pl
  obtain ⟨root, hroot⟩ := hhf (((lvl0 :: rest).getD (depth - 1) []).getD 0 [] ++
    ((lvl0 :: rest).getD (depth - 1) []).getD 1 [])
  refine ⟨(lvl0 :: rest, root, storeLeafMap leaves), ?_⟩
  simp only [treeBuild, hfix, hrest, hroot]

/-- If the hash never fails, `proofGen` never fails. -/
theorem proofGen_ok (hf : HashFuncType) (hhf : ∀ x, ∃ y, hf x = .ok y)
    (noDup : Bool) (dummy : Nat → Bytes) (leaves : List Bytes) (depth : Nat) :
    ∃ out, proofGen hf noDup dummy leaves depth = .ok out := by
  rcases hfix : fixOdd noDup (dummy 0) leaves leaves.length with ⟨buf, prevLen⟩
  obtain ⟨⟨buf1, pl1, ps1⟩, hloop⟩ := proofGenLoop_ok hf hhf noDup dummy (depth - 1) 1 buf
    prevLen (updateProofs buf leaves.length 0 (initProofs leaves.length))
  obtain ⟨root, hroot⟩ := hhf (buf1.getD 0 [] ++ buf1.getD 1 [])
  refine ⟨(root, ps1), ?_⟩
  simp only [proofGen, hfix, hloop, hroot]

/-- If every block serializes, `leafGen` succeeds. -/
theorem leafGen_ok (sortLvs : Bool) (blocks : List DataBlock)
    (hser : ∀ b ∈ blocks, ∃ bs, b.serialize = Except.ok bs) :
    ∃ out, leafGen sortLvs blocks = .ok out := by
  obtain ⟨leaves, hl⟩ := exceptMap_ok (fun b => b.serialize) blocks hser
  refine ⟨if sortLvs then sortBytesList leaves else leaves, ?_⟩
  simp only [leafGen, hl]

/-- With total serialization and hashing, `New` succeeds for at least two
blocks and a recognized mode. -/
theorem New_ok (cfg : Config) (blocks : List DataBlock) (dummy : Nat → Bytes)
    (hser : ∀ b ∈ blocks, ∃ bs, b.serialize = Except.ok bs)
    (hhf : ∀ x, ∃ y, (cfg.hashFunc.getD defaultHashFunc) x = Except.ok y)
    (hlen : 2 ≤ blocks.length)
    (hmode : cfg.mode = ModeProofGen ∨ cfg.mode = ModeTreeBuild ∨
      cfg.mode = ModeProofGenAndTreeBuild) :
    ∃ t, New (some cfg) blocks dummy = Except.ok t := by
  obtain ⟨leaves, hl⟩ := leafGen_ok cfg.sortLeaves blocks hser
  have hlen1 : ¬ blocks.length ≤ 1 := by omega
  rcases hmode with h | h | h
  · obtain ⟨⟨root, ps⟩, hp⟩ := proofGen_ok _ hhf cfg.noDuplicates dummy leaves
      (calTreeDepth blocks.length)
    refine ⟨{ hashFunc := cfg.hashFunc.getD defaultHashFunc, mode := cfg.mode,
              noDuplicates := cfg.noDuplicates, sortLeaves := cfg.sortLeaves,
              sortPairs := cfg.sortPairs, tree := [], root := root, leaves := leaves,
              proofs := ps, depth := calTreeDepth blocks.length, leafMap := [] }, ?_⟩
    simp only [New, if_neg hlen1, Option.getD_some, hl, h]
    rw [if_pos trivial]
    simp only [hp]
  · obtain ⟨⟨tree, root, lm⟩, hp⟩ := treeBuild_ok _ hhf cfg.sortPairs cfg.noDuplicates dummy
      leaves (calTreeDepth blocks.length)
    refine ⟨{ hashFunc := cfg.hashFunc.getD defaultHashFunc, mode := cfg.mode,
              noDuplicates := cfg.noDuplicates, sortLeaves := cfg.sortLeaves,
              sortPairs := cfg.sortPairs, tree := tree, root := root, leaves := leaves,
              proofs := [], depth := calTreeDepth blocks.length, leafMap := lm }, ?_⟩
    simp only [New, if_neg hlen1, Option.getD_some, hl, h]
    rw [if_neg (by decide), if_pos trivial]
    simp only [hp]
  · obtain ⟨⟨tree, root, lm⟩, hp⟩ := treeBuild_ok _ hhf cfg.sortPairs cfg.noDuplicates dummy
      leaves (calTreeDepth blocks.length)
    refine ⟨{ hashFunc := cfg.hashFunc.getD defaultHashFunc, mode := cfg.mode,
              noDuplicates := cfg.noDuplicates, sortLeaves := cfg.sortLeaves,
              sortPairs := cfg.sortPairs, tree := tree, root := root, leaves := leaves,
              proofs := updateProofsAll tree 0 (initProofs leaves.length),
              depth := calTreeDepth blocks.length, leafMap := lm }, ?_⟩
    simp only [New, if_neg hlen1, Option.getD_some, hl, h]
    rw [if_neg (by decide), if_neg (by decide), if_pos trivial]
    simp only [hp]

/-- C7 (amended): assuming every supplied block serializes successfully and the
resolved hash function never fails, `New` returns an error exactly when fewer
than two blocks are supplied or the configuration mode is unrecognized. -/
theorem C7_amended_thm (cfg : Config) (blocks : List DataBlock) (dummy : Nat → Bytes)
    (hser : ∀ b ∈ blocks, ∃ bs, b.serialize = Except.ok bs)
    (hhf : ∀ x, ∃ y, (cfg.hashFunc.getD defaultHashFunc) x = Except.ok y) :
    (∃ e, New (some cfg) blocks dummy = Except.error e) ↔
      (blocks.length ≤ 1 ∨
        ¬(cfg.mode = ModeProofGen ∨ cfg.mode = ModeTreeBuild ∨
          cfg.mode = ModeProofGenAndTreeBuild)) := by
  constructor
  · rintro ⟨e, he⟩
    by_contra hcon
    push_neg at hcon
    obtain ⟨t, ht⟩ := New_ok cfg blocks dummy hser hhf (by omega) hcon.2
    rw [ht] at he
    exact absurd he (by simp)
  · intro h
    rcases h with h | h
    · exact ⟨"the number of data blocks must be greater than 1",
        by simp only [New, if_pos h]⟩
    · by_cases hlen : blocks.length ≤ 1
      · exact ⟨"the number of data blocks must be greater than 1",
          by simp only [New, if_pos hlen]⟩
      · obtain ⟨leaves, hl⟩ := leafGen_ok cfg.sortLeaves blocks hser
        push_neg at h
        refine ⟨"invalid configuration mode", ?_⟩
        simp only [New, if_neg hlen, Option.getD_some, hl]
        rw [if_neg h.1, if_neg h.2.1, if_neg h.2.2]

/-- C7 (witness): with two good blocks, a total hash function and the
unrecognized mode 7, `New` fails. -/
theorem C7_witness :
    (New (some { hashFunc := some tHash, mode := 7 }) [blkA, blkB4] dZero).isOk = false := by
  have hser : ∀ b ∈ [blkA, blkB4], ∃ bs, DataBlock.serialize b = Except.ok bs := by
    intro b hb
    rcases List.mem_cons.mp hb with rfl | hb
    · exact ⟨[0], rfl⟩
    · rcases List.mem_cons.mp hb with rfl | hb
      · exact ⟨[4], rfl⟩
      · exact absurd hb (List.not_mem_nil b)
  obtain ⟨e, he⟩ := (C7_amended_thm { hashFunc := some tHash, mode := 7 } [blkA, blkB4] dZero
    hser (fun x => ⟨_, rfl⟩)).mpr (Or.inr (by decide))
  rw [he]
  rfl

/-! ## C9: determinism without random padding (amended) -/

/-- `fixOdd` ignores the entropy draw when duplicates are allowed. -/
theorem fixOdd_nodup (d1 d2 : Bytes) (buf : List Bytes) (p : Nat) :
    fixOdd false d1 buf p = fixOdd false d2 buf p := by
  simp [fixOdd]

/-- The `proofGen` loop is entropy-independent when duplicates are allowed. -/
theorem proofGenLoop_nodup (hf : HashFuncType) (d1 d2 : Nat → Bytes) :
    ∀ (fuel step : Nat) (buf : List Bytes) (prevLen : Nat) (ps : List Proof),
      proofGenLoop hf false d1 step fuel buf prevLen ps =
      proofGenLoop hf false d2 step fuel buf prevLen ps := by
  intro fuel
  induction fuel with
  | zero => intros; rfl
  | succ fuel ih =>
    intro step buf prevLen ps
    simp only [proofGenLoop, fixOdd_nodup (d1 step) (d2 step)]
    cases hashPairs hf prevLen buf with
    | error e => rfl
    | ok buf1 =>
      exact ih (step + 1) (fixOdd false (d2 step) buf1 (prevLen / 2)).1
        (fixOdd false (d2 step) buf1 (prevLen / 2)).2
        (updateProofs (fixOdd false (d2 step) buf1 (prevLen / 2)).1
          (fixOdd false (d2 step) buf1 (prevLen / 2)).2 step ps)

/-- `proofGen` is entropy-independent when duplicates are allowed. -/
theorem proofGen_nodup (hf : HashFuncType) (d1 d2 : Nat → Bytes)
    (leaves : List Bytes) (depth : Nat) :
    proofGen hf false d1 leaves depth = proofGen hf false d2 leaves depth := by
  simp only [proofGen]
  rw [fixOdd_nodup (d1 0) (d2 0) leaves leaves.length]
  rcases hfix : fixOdd false (d2 0) leaves leaves.length with ⟨buf, prevLen⟩
  rw [proofGenLoop_nodup hf d1 d2 (depth - 1) 1 buf prevLen _]

/-- The upper-level construction is entropy-independent when duplicates are
allowed. -/
theorem treeLevelsFrom_nodup (hf : HashFuncType) (sp : Bool) (d1 d2 : Nat → Bytes) :
    ∀ (r i : Nat) (lvl : List Bytes) (prevLen : Nat),
      treeLevelsFrom hf sp false d1 i r lvl prevLen =
      treeLevelsFrom hf sp false d2 i r lvl prevLen := by
  intro r
  induction r with
  | zero => intros; rfl
  | succ r ih =>
    intro i lvl prevLen
    simp only [treeLevelsFrom, fixOdd_nodup (d1 (i + 1)) (d2 (i + 1))]
    cases buildNextLevel hf sp lvl prevLen with
    | error e => rfl
    | ok next =>
      show (match treeLevelsFrom hf sp false d1 (i + 1) r
              (fixOdd false (d2 (i + 1)) next next.length).1
              (fixOdd false (d2 (i + 1)) next next.length).2 with
            | Except.error e => Except.error e
            | Except.ok rest =>
              Except.ok ((fixOdd false (d2 (i + 1)) next next.length).1 :: rest)) =
           (match treeLevelsFrom hf sp false d2 (i + 1) r
              (fixOdd false (d2 (i + 1)) next next.length).1
              (fixOdd false (d2 (i + 1)) next next.length).2 with
            | Except.error e => Except.error e
            | Except.ok rest =>
              Except.ok ((fixOdd false (d2 (i + 1)) next next.length).1 :: rest))
      rw [ih (i + 1) (fixOdd false (d2 (i + 1)) next next.length).1
        (fixOdd false (d2 (i + 1)) next next.length).2]

/-- `treeBuild` is entropy-independent when duplicates are allowed. -/
theorem treeBuild_nodup (hf : HashFuncType) (sp : Bool) (d1 d2 : Nat → Bytes)
    (leaves : List Bytes) (depth : Nat) :
    treeBuild hf sp false d1 leaves depth = treeBuild hf sp false d2 leaves depth := by
  simp only [treeBuild]
  rw [fixOdd_nodup (d1 0) (d2 0) leaves leaves.length]
  rcases hfix : fixOdd false (d2 0) leaves leaves.length with ⟨lvl0, pl⟩
  rw [treeLevelsFrom_nodup hf sp d1 d2 (depth - 1) 0 lvl0 pl]

/-- C9 (amended): with `noDuplicateOddNode = false`, construction is
deterministic — the entire resulting `MerkleTree` (root, levels, proofs, index)
is independent of the entropy source, so two runs agree. -/
theorem C9_amended_thm (cfg : Config) (blocks : List DataBlock) (d1 d2 : Nat → Bytes)
    (h : cfg.noDuplicates = false) :
    New (some cfg) blocks d1 = New (some cfg) blocks d2 := by
  by_cases hlen : blocks.length ≤ 1
  · simp only [New, if_pos hlen]
  · simp only [New, if_neg hlen, Option.getD_some, h]
    cases leafGen cfg.sortLeaves blocks with
    | error e => rfl
    | ok leaves =>
      by_cases h0 : cfg.mode = ModeProofGen
      · simp only [if_pos h0]
        rw [proofGen_nodup _ d1 d2 leaves (calTreeDepth blocks.length)]
      · simp only [if_neg h0]
        by_cases h1 : cfg.mode = ModeTreeBuild
        · simp only [if_pos h1]
          rw [treeBuild_nodup _ cfg.sortPairs d1 d2 leaves (calTreeDepth blocks.length)]
        · simp only [if_neg h1]
          by_cases h2 : cfg.mode = ModeProofGenAndTreeBuild
          · simp only [if_pos h2]
            rw [treeBuild_nodup _ cfg.sortPairs d1 d2 leaves (calTreeDepth blocks.length)]
          · simp only [if_neg h2]

/-- C9 (witness): two runs with different entropy sources agree on a concrete
configuration with `noDuplicates = false`. -/
theorem C9_witness :
    New (some { hashFunc := some tHash, mode := ModeTreeBuild }) [blkA, blkB1, blkC1] dFive =
    New (some { hashFunc := some tHash, mode := ModeTreeBuild }) [blkA, blkB1, blkC1] dNine :=
  C9_amended_thm _ _ dFive dNine rfl

/-- C9 (counterexample): with `noDuplicateOddNode = true` the build is not
deterministic — two runs differing only in the `crypto/rand` draws produce
different roots for the same configuration and blocks. -/
theorem C9_counterexample :
    (New (some { hashFunc := some tHash, mode := ModeTreeBuild, noDuplicates := true })
        [blkA, blkB1, blkC1] dFive).map (fun t => t.root) = .ok [14] ∧
    (New (some { hashFunc := some tHash, mode := ModeTreeBuild, noDuplicates := true })
        [blkA, blkB1, blkC1] dNine).map (fun t => t.root) = .ok [18] ∧
    ([14] : Bytes) ≠ [18] :=
  ⟨rfl, rfl, by decide⟩

/-! ## C10: shape of the generated proofs -/

theorem nth_cons_zero (p : Proof) (ps : List Proof) : nth (p :: ps) 0 = p := rfl

theorem nth_cons_succ (p : Proof) (ps : List Proof) (k : Nat) :
    nth (p :: ps) (k + 1) = nth ps k := rfl

theorem rangeUpdate_length (f : Proof → Proof) (start stop : Nat) :
    ∀ (ps : List Proof) (i : Nat), (rangeUpdate f start stop i ps).length = ps.length := by
  intro ps
  induction ps with
  | nil => intro i; rfl
  | cons p ps ih => intro i; simp only [rangeUpdate, List.length_cons, ih]

theorem rangeUpdate_nth (f : Proof → Proof) (start stop : Nat) :
    ∀ (ps : List Proof) (i k : Nat),
      nth (rangeUpdate f start stop i ps) k =
        if start ≤ i + k ∧ i + k < stop ∧ k < ps.length then f (nth ps k) else nth ps k := by
  intro ps
  induction ps with
  | nil =>
    intro i k
    simp only [rangeUpdate, List.length_nil]
    rw [if_neg (by omega)]
  | cons p ps ih =>
    intro i k
    cases k with
    | zero =>
      simp only [rangeUpdate, nth_cons_zero, Nat.add_zero, List.length_cons]
      by_cases h1 : start ≤ i ∧ i < stop
      · rw [if_pos h1, if_pos ⟨h1.1, h1.2, Nat.succ_pos _⟩]
      · rw [if_neg h1, if_neg (fun hc => h1 ⟨hc.1, hc.2.1⟩)]
    | succ k =>
      simp only [rangeUpdate, nth_cons_succ, List.length_cons]
      rw [ih (i + 1) k]
      rw [if_congr (by omega :
        (start ≤ i + 1 + k ∧ i + 1 + k < stop ∧ k < ps.length) ↔
        (start ≤ i + (k + 1) ∧ i + (k + 1) < stop ∧ k + 1 < ps.length + 1)) rfl rfl]

theorem updatePairProof_length (buf : List Bytes) (idx batch step : Nat) (ps : List Proof) :
    (updatePairProof buf idx batch step ps).length = ps.length := by
  simp only [updatePairProof, rangeUpdate_length]

theorem updatePairProof_nth (buf : List Bytes) (idx batch step : Nat) (ps : List Proof)
    (k : Nat) (hk : k < ps.length) :
    nth (updatePairProof buf idx batch step ps) k =
      if idx * batch ≤ k ∧ k < idx * batch + batch then
        sibPathUpdate step (buf.getD (idx + 1) []) (nth ps k)
      else if idx * batch + batch ≤ k ∧ k < idx * batch + batch + batch then
        sibUpdate (buf.getD idx []) (nth ps k)
      else nth ps k := by
  simp only [updatePairProof]
  rw [rangeUpdate_nth, rangeUpdate_nth, rangeUpdate_length]
  simp only [Nat.zero_add]
  by_cases h1 : idx * batch ≤ k ∧ k < idx * batch + batch
  · rw [if_neg (by omega), if_pos (by omega), if_pos h1]
  · by_cases h2 : idx * batch + batch ≤ k ∧ k < idx * batch + batch + batch
    · rw [if_pos (by omega), if_neg (by omega), if_neg h1, if_pos h2]
    · rw [if_neg (by omega), if_neg (by omega), if_neg h1, if_neg h2]

theorem foldRange_eq_pairFold (buf : List Bytes) (b step : Nat) :
    ∀ (K : Nat) (ps : List Proof),
      (List.range K).foldl (fun ps m => updatePairProof buf (m * 2) b step ps) ps =
      pairFold buf b step K ps := by
  intro K
  induction K with
  | zero => intro ps; rfl
  | succ K ih =>
    intro ps
    rw [List.range_succ, List.foldl_append]
    simp only [List.foldl_cons, List.foldl_nil]
    rw [ih]
    rfl

theorem updateProofs_eq_pairFold (buf : List Bytes) (bufLen step : Nat) (ps : List Proof) :
    updateProofs buf bufLen step ps = pairFold buf (2 ^ step) step ((bufLen + 1) / 2) ps := by
  simp only [updateProofs, pairIndices, List.foldl_map]
  exact foldRange_eq_pairFold buf (2 ^ step) step ((bufLen + 1) / 2) ps

theorem pairFold_length (buf : List Bytes) (b step : Nat) :
    ∀ (K : Nat) (ps : List Proof), (pairFold buf b step K ps).length = ps.length := by
  intro K
  induction K with
  | zero => intro ps; rfl
  | succ K ih =>
    intro ps
    show (updatePairProof buf (K * 2) b step (pairFold buf b step K ps)).length = ps.length
    rw [updatePairProof_length, ih]

/-- Core characterization of the pair loop: a proof index below the covered
range `K * 2 * b` receives exactly one new sibling (with the path bit updated
exactly when its pair position is even); indices at or beyond the covered range
are untouched. -/
theorem pairFold_nth (buf : List Bytes) (b step : Nat) :
    ∀ (K : Nat) (ps : List Proof) (k : Nat), k < ps.length →
      (k < K * 2 * b →
        ∃ sib, nth (pairFold buf b step K ps) k =
          (if k / b % 2 = 0 then sibPathUpdate step sib (nth ps k)
           else sibUpdate sib (nth ps k))) ∧
      (K * 2 * b ≤ k → nth (pairFold buf b step K ps) k = nth ps k) := by
  intro K
  induction K with
  | zero =>
    intro ps k hk
    exact ⟨fun h => absurd h (by omega), fun _ => rfl⟩
  | succ K ih =>
    intro ps k hk
    have hexp : (K + 1) * 2 * b = K * 2 * b + (b + b) := by ring
    have hlen : (pairFold buf b step K ps).length = ps.length := pairFold_length buf b step K ps
    have hkl : k < (pairFold buf b step K ps).length := by rw [hlen]; exact hk
    constructor
    · intro hlt
      rw [hexp] at hlt
      by_cases hcase : k < K * 2 * b
      · obtain ⟨sib, hsib⟩ := (ih ps k hk).1 hcase
        refine ⟨sib, ?_⟩
        show nth (updatePairProof buf (K * 2) b step (pairFold buf b step K ps)) k = _
        rw [updatePairProof_nth _ _ _ _ _ k hkl]
        rw [if_neg (by omega), if_neg (by omega)]
        exact hsib
      · have huntouched := (ih ps k hk).2 (by omega)
        have hb : 0 < b := by omega
        by_cases hleft : k < K * 2 * b + b
        · refine ⟨buf.getD (K * 2 + 1) [], ?_⟩
          show nth (updatePairProof buf (K * 2) b step (pairFold buf b step K ps)) k = _
          rw [updatePairProof_nth _ _ _ _ _ k hkl, huntouched]
          rw [if_pos ⟨by omega, by omega⟩]
          have hdiv : k / b = K * 2 := by
            apply Nat.div_eq_of_lt_le
            · omega
            · have : (K * 2 + 1) * b = K * 2 * b + b := by ring
              omega
          rw [hdiv]
          rw [if_pos (by omega)]
        · refine ⟨buf.getD (K * 2) [], ?_⟩
          show nth (updatePairProof buf (K * 2) b step (pairFold buf b step K ps)) k = _
          rw [updatePairProof_nth _ _ _ _ _ k hkl, huntouched]
          rw [if_neg (by omega), if_pos ⟨by omega, by omega⟩]
          have hdiv : k / b = K * 2 + 1 := by
            apply Nat.div_eq_of_lt_le
            · have : (K * 2 + 1) * b = K * 2 * b + b := by ring
              omega
            · have : (K * 2 + 1 + 1) * b = K * 2 * b + (b + b) := by ring
              omega
          rw [hdiv]
          rw [if_neg (by omega)]
    · intro hge
      rw [hexp] at hge
      show nth (updatePairProof buf (K * 2) b step (pairFold buf b step K ps)) k = nth ps k
      rw [updatePairProof_nth _ _ _ _ _ k hkl]
      rw [if_neg (by omega), if_neg (by omega)]
      exact (ih ps k hk).2 (by omega)

/-- `updateProofs` with an (even) buffer length covering every proof appends
exactly one sibling to every proof, updating the path bit exactly for the left
halves. -/
theorem updateProofs_shape (buf : List Bytes) (bufLen step : Nat) (ps : List Proof)
    (hcov : ps.length ≤ (bufLen + 1) / 2 * 2 * 2 ^ step) (k : Nat) (hk : k < ps.length) :
    (updateProofs buf bufLen step ps).length = ps.length ∧
    ∃ sib, nth (updateProofs buf bufLen step ps) k =
      (if k / 2 ^ step % 2 = 0 then sibPathUpdate step sib (nth ps k)
       else sibUpdate sib (nth ps k)) := by
  rw [updateProofs_eq_pairFold]
  refine ⟨pairFold_length buf (2 ^ step) step ((bufLen + 1) / 2) ps, ?_⟩
  exact (pairFold_nth buf (2 ^ step) step ((bufLen + 1) / 2) ps k hk).1 (by omega)

theorem updateProofs_length (buf : List Bytes) (bufLen step : Nat) (ps : List Proof) :
    (updateProofs buf bufLen step ps).length = ps.length := by
  rw [updateProofs_eq_pairFold]
  exact pairFold_length buf (2 ^ step) step ((bufLen + 1) / 2) ps

theorem fixOdd_snd (noDup : Bool) (d : Bytes) (buf : List Bytes) (p : Nat) :
    (fixOdd noDup d buf p).2 = if p % 2 = 0 then p else p + 1 := by
  unfold fixOdd
  split_ifs <;> rfl

theorem fixOdd_snd_even (noDup : Bool) (d : Bytes) (buf : List Bytes) (p : Nat) :
    (fixOdd noDup d buf p).2 % 2 = 0 := by
  rw [fixOdd_snd]
  split_ifs with h <;> omega

theorem fixOdd_snd_ge (noDup : Bool) (d : Bytes) (buf : List Bytes) (p : Nat) :
    p ≤ (fixOdd noDup d buf p).2 := by
  rw [fixOdd_snd]
  split_ifs <;> omega

theorem initProofs_length (n : Nat) : (initProofs n).length = n := by
  simp [initProofs]

theorem initProofs_nth (n k : Nat) (hk : k < n) : nth (initProofs n) k = ⟨[], 0⟩ := by
  unfold initProofs nth
  rw [List.getD_eq_getElem _ _ (by simpa using hk)]
  exact List.getElem_replicate ..

/-- One path-bit update (uint32 arithmetic) keeps the path below the bit window:
from `p < 2 ^ min s 32` to `(p + 2 ^ s % 2 ^ 32) % 2 ^ 32 < 2 ^ min (s+1) 32`. -/
theorem pathStep_lt {p s : Nat} (hp : p < 2 ^ min s 32) :
    (p + 2 ^ s % 2 ^ 32) % 2 ^ 32 < 2 ^ min (s + 1) 32 := by
  by_cases hs : s < 32
  · rw [show min s 32 = s from by omega] at hp
    rw [show min (s + 1) 32 = s + 1 from by omega]
    have hlt : 2 ^ s < 2 ^ 32 := Nat.pow_lt_pow_right (by omega) hs
    rw [Nat.mod_eq_of_lt hlt]
    have hsum : p + 2 ^ s < 2 ^ (s + 1) := by
      rw [pow_succ]
      omega
    have hle : 2 ^ (s + 1) ≤ 2 ^ 32 := Nat.pow_le_pow_right (by omega) (by omega)
    rw [Nat.mod_eq_of_lt (by omega)]
    exact hsum
  · rw [show min s 32 = 32 from by omega] at hp
    rw [show min (s + 1) 32 = 32 from by omega]
    have hz : 2 ^ s % 2 ^ 32 = 0 := by
      rw [show (2 : Nat) ^ s = 2 ^ 32 * 2 ^ (s - 32) from by
        rw [← pow_add]
        congr 1
        omega]
      exact Nat.mul_mod_right _ _
    rw [hz, Nat.add_zero, Nat.mod_eq_of_lt hp]
    exact hp

theorem pow_min_le {s : Nat} : (2 : Nat) ^ min s 32 ≤ 2 ^ min (s + 1) 32 :=
  Nat.pow_le_pow_right (by omega) (by omega)

/-- Invariant of the `proofGen` step loop: entering step `s` with `n` proofs of
`s` siblings each, paths inside the low `min s 32` bits, an even live length
`prevLen` with `n ≤ prevLen * 2 ^ (s-1)`, after `fuel` more steps every proof
has `s + fuel` siblings and its path stays inside the window. -/
theorem proofGenLoop_shape (hf : HashFuncType) (noDup : Bool) (dummy : Nat → Bytes) (n : Nat) :
    ∀ (fuel s : Nat) (buf : List Bytes) (prevLen : Nat) (ps : List Proof)
      (out : List Bytes × Nat × List Proof),
      proofGenLoop hf noDup dummy s fuel buf prevLen ps = .ok out →
      1 ≤ s → ps.length = n → prevLen % 2 = 0 → n ≤ prevLen * 2 ^ (s - 1) →
      (∀ k, k < n → (nth ps k).siblings.length = s ∧ (nth ps k).path < 2 ^ min s 32) →
      out.2.2.length = n ∧
      ∀ k, k < n → (nth out.2.2 k).siblings.length = s + fuel ∧
        (nth out.2.2 k).path < 2 ^ min (s + fuel) 32 := by
  intro fuel
  induction fuel with
  | zero =>
    intro s buf prevLen ps out hok h1 hn hpev hcov hinv
    cases hok
    exact ⟨hn, fun k hk => by simpa using hinv k hk⟩
  | succ fuel ih =>
    intro s buf prevLen ps out hok h1 hn hpev hcov hinv
    simp only [proofGenLoop] at hok
    split at hok
    · simp at hok
    · rename_i buf1 hhp
      rcases hfix : fixOdd noDup (dummy s) buf1 (prevLen / 2) with ⟨buf2, pl2⟩
      rw [hfix] at hok
      dsimp only at hok
      have hev : pl2 % 2 = 0 := by
        have h := fixOdd_snd_even noDup (dummy s) buf1 (prevLen / 2)
        rwa [hfix] at h
      have hge : prevLen / 2 ≤ pl2 := by
        have h := fixOdd_snd_ge noDup (dummy s) buf1 (prevLen / 2)
        rwa [hfix] at h
      have hcov1 : n ≤ pl2 * 2 ^ s := by
        have heq : prevLen * 2 ^ (s - 1) = prevLen / 2 * 2 ^ s := by
          rcases s with _ | s
          · omega
          · have h2 : prevLen = 2 * (prevLen / 2) := by omega
            calc prevLen * 2 ^ (s + 1 - 1) = 2 * (prevLen / 2) * 2 ^ s := by
                  rw [← h2]
                  simp
              _ = prevLen / 2 * 2 ^ (s + 1) := by ring
        have := Nat.mul_le_mul_right (2 ^ s) hge
        omega
      have hinv1 : ∀ k, k < n →
          (nth (updateProofs buf2 pl2 s ps) k).siblings.length = s + 1 ∧
          (nth (updateProofs buf2 pl2 s ps) k).path < 2 ^ min (s + 1) 32 := by
        intro k hk
        have hcv : ps.length ≤ (pl2 + 1) / 2 * 2 * 2 ^ s := by
          rw [hn, show (pl2 + 1) / 2 * 2 = pl2 from by omega]
          exact hcov1
        obtain ⟨_, sib, hsib⟩ := updateProofs_shape buf2 pl2 s ps hcv k (by rw [hn]; exact hk)
        by_cases hcond : k / 2 ^ s % 2 = 0
        · rw [if_pos hcond] at hsib
          rw [hsib]
          exact ⟨by simp [sibPathUpdate, (hinv k hk).1],
            pathStep_lt (hinv k hk).2⟩
        · rw [if_neg hcond] at hsib
          rw [hsib]
          refine ⟨by simp [sibUpdate, (hinv k hk).1], ?_⟩
          exact lt_of_lt_of_le (hinv k hk).2 pow_min_le
      have hres := ih (s + 1) buf2 pl2 (updateProofs buf2 pl2 s ps) out hok (by omega)
        (by rw [updateProofs_length, hn]) hev (by simpa using hcov1) hinv1
      rw [show s + 1 + fuel = s + (fuel + 1) from by omega] at hres
      exact hres

theorem mem_nth (ps : List Proof) (p : Proof) (hp : p ∈ ps) :
    ∃ k, k < ps.length ∧ nth ps k = p := by
  induction ps with
  | nil => cases hp
  | cons q ps ih =>
    rcases List.mem_cons.mp hp with rfl | hp
    · exact ⟨0, Nat.succ_pos _, rfl⟩
    · obtain ⟨k, hk, hnth⟩ := ih hp
      exact ⟨k + 1, by simpa using hk, hnth⟩

theorem exceptMap_length {α β : Type} (f : α → Except String β) :
    ∀ (l : List α) (out : List β), exceptMap f l = .ok out → out.length = l.length := by
  intro l
  induction l with
  | nil =>
    intro out h
    simp only [exceptMap] at h
    cases h
    rfl
  | cons a as ih =>
    intro out h
    cases hfa : f a with
    | error e =>
      simp only [exceptMap, hfa] at h
      exact Except.noConfusion h
    | ok b =>
      cases hrec : exceptMap f as with
      | error e =>
        simp only [exceptMap, hfa, hrec] at h
        exact Except.noConfusion h
      | ok bs =>
        simp only [exceptMap, hfa, hrec] at h
        cases h
        simp only [List.length_cons, ih bs hrec]

theorem insertSorted_length (x : Bytes) :
    ∀ l : List Bytes, (insertSorted x l).length = l.length + 1 := by
  intro l
  induction l with
  | nil => rfl
  | cons y ys ih =>
    simp only [insertSorted]
    split_ifs
    · simp only [List.length_cons, ih]
    · simp only [List.length_cons]

theorem sortBytesList_length : ∀ l : List Bytes, (sortBytesList l).length = l.length := by
  intro l
  induction l with
  | nil => rfl
  | cons x xs ih =>
    show (insertSorted x (sortBytesList xs)).length = xs.length + 1
    rw [insertSorted_length, ih]

theorem leafGen_length (sortLvs : Bool) (blocks : List DataBlock) (leaves : List Bytes)
    (h : leafGen sortLvs blocks = .ok leaves) : leaves.length = blocks.length := by
  unfold leafGen at h
  cases hraw : exceptMap (fun b => b.serialize) blocks with
  | error e =>
    rw [hraw] at h
    exact Except.noConfusion h
  | ok raw =>
    rw [hraw] at h
    cases h
    have hr := exceptMap_length (fun b => b.serialize) blocks raw hraw
    cases sortLvs with
    | false => simpa using hr
    | true => simpa [sortBytesList_length] using hr

theorem log2Fuel_pos (fuel n : Nat) (hf : 1 ≤ fuel) (hn : 2 ≤ n) : 1 ≤ log2Fuel fuel n := by
  rcases fuel with _ | fuel
  · omega
  · simp only [log2Fuel, if_pos hn]
    omega

theorem calTreeDepth_pos (n : Nat) (h : 2 ≤ n) : 1 ≤ calTreeDepth n := by
  unfold calTreeDepth
  have hl : 1 ≤ log2Nat n := log2Fuel_pos n n (by omega) h
  split_ifs <;> omega

theorem pow_min_le_pow (d : Nat) : (2 : Nat) ^ min d 32 ≤ 2 ^ d :=
  Nat.pow_le_pow_right (by omega) (Nat.min_le_left d 32)

/-- The proofs produced by `proofGen` on `n ≥ 2` leaves with depth `d ≥ 1`: one
per leaf, each with exactly `d` siblings and path below `2 ^ d`. -/
theorem proofGen_shape (hf : HashFuncType) (noDup : Bool) (dummy : Nat → Bytes)
    (leaves : List Bytes) (depth : Nat) (root : Bytes) (ps : List Proof)
    (hok : proofGen hf noDup dummy leaves depth = .ok (root, ps))
    (hn2 : 2 ≤ leaves.length) (hd : 1 ≤ depth) :
    ps.length = leaves.length ∧
    ∀ p ∈ ps, p.siblings.length = depth ∧ p.path < 2 ^ depth := by
  simp only [proofGen] at hok
  rcases hfix : fixOdd noDup (dummy 0) leaves leaves.length with ⟨buf0, P0⟩
  rw [hfix] at hok
  dsimp only at hok
  split at hok
  · simp at hok
  · rename_i buf1 dead ps1 hloop
    split at hok
    · simp at hok
    · rename_i root1 hroot
      injection hok with hok
      injection hok with hok1 hok2
      subst hok2
      have hev : P0 % 2 = 0 := by
        have h := fixOdd_snd_even noDup (dummy 0) leaves leaves.length
        rwa [hfix] at h
      have hge : leaves.length ≤ P0 := by
        have h := fixOdd_snd_ge noDup (dummy 0) leaves leaves.length
        rwa [hfix] at h
      have hinit : ∀ k, k < leaves.length →
          (nth (updateProofs buf0 leaves.length 0 (initProofs leaves.length)) k).siblings.length = 1 ∧
          (nth (updateProofs buf0 leaves.length 0 (initProofs leaves.length)) k).path <
            2 ^ min 1 32 := by
        intro k hk
        have hcv : (initProofs leaves.length).length ≤
            (leaves.length + 1) / 2 * 2 * 2 ^ 0 := by
          rw [initProofs_length, pow_zero, Nat.mul_one]
          omega
        obtain ⟨_, sib, hsib⟩ := updateProofs_shape buf0 leaves.length 0
          (initProofs leaves.length) hcv k (by rw [initProofs_length]; exact hk)
        rw [initProofs_nth leaves.length k hk] at hsib
        by_cases hcond : k / 2 ^ 0 % 2 = 0
        · rw [if_pos hcond] at hsib
          rw [hsib]
          constructor
          · simp [sibPathUpdate]
          · simp [sibPathUpdate]
        · rw [if_neg hcond] at hsib
          rw [hsib]
          constructor
          · simp [sibUpdate]
          · simp [sibUpdate]
      have hshape := proofGenLoop_shape hf noDup dummy leaves.length (depth - 1) 1 buf0 P0
        (updateProofs buf0 leaves.length 0 (initProofs leaves.length)) (buf1, dead, ps1)
        hloop (by omega) (by rw [updateProofs_length, initProofs_length]) hev
        (by simpa using hge) hinit
      rw [show 1 + (depth - 1) = depth from by omega] at hshape
      subst hok1
      refine ⟨hshape.1, fun p hp => ?_⟩
      obtain ⟨k, hk, hnth⟩ := mem_nth ps1 p hp
      rw [hshape.1] at hk
      obtain ⟨hsl, hpl⟩ := hshape.2 k hk
      rw [hnth] at hsl hpl
      exact ⟨hsl, lt_of_lt_of_le hpl (pow_min_le_pow depth)⟩

theorem fixOdd_fst_length (noDup : Bool) (d : Bytes) (buf : List Bytes) (p : Nat)
    (h : buf.length = p) :
    (fixOdd noDup d buf p).1.length = (fixOdd noDup d buf p).2 := by
  unfold fixOdd
  split_ifs <;> first | exact h | (simp [h]; try omega)

/-- The levels above a fixed-up level of even length `prevLen ≥ n / 2^i` keep
even lengths and coverage of all `n` leaves, one level per remaining step. -/
theorem treeLevelsFrom_chain (hf : HashFuncType) (sp noDup : Bool) (dummy : Nat → Bytes)
    (n : Nat) :
    ∀ (r i : Nat) (lvl : List Bytes) (prevLen : Nat) (rest : List (List Bytes)),
      treeLevelsFrom hf sp noDup dummy i r lvl prevLen = .ok rest →
      lvl.length = prevLen → prevLen % 2 = 0 → n ≤ prevLen * 2 ^ i →
      chainOK n (i + 1) rest ∧ rest.length = r := by
  intro r
  induction r with
  | zero =>
    intro i lvl prevLen rest hok _ _ _
    cases hok
    exact ⟨trivial, rfl⟩
  | succ r ih =>
    intro i lvl prevLen rest hok hlen hev hcov
    simp only [treeLevelsFrom] at hok
    split at hok
    · simp at hok
    · rename_i next hnext
      rcases hfix : fixOdd noDup (dummy (i + 1)) next next.length with ⟨next2, pl2⟩
      rw [hfix] at hok
      dsimp only at hok
      split at hok
      · simp at hok
      · rename_i rest1 hrest
        injection hok with hok
        subst hok
        have hnl : next.length = (prevLen + 1) / 2 := by
          have h := exceptMap_length _ (pairIndices prevLen) next hnext
          simpa [pairIndices] using h
        have hl2 : next2.length = pl2 := by
          have h := fixOdd_fst_length noDup (dummy (i + 1)) next next.length rfl
          rwa [hfix] at h
        have hev2 : pl2 % 2 = 0 := by
          have h := fixOdd_snd_even noDup (dummy (i + 1)) next next.length
          rwa [hfix] at h
        have hge2 : next.length ≤ pl2 := by
          have h := fixOdd_snd_ge noDup (dummy (i + 1)) next next.length
          rwa [hfix] at h
        have hcov2 : n ≤ pl2 * 2 ^ (i + 1) := by
          have h1 : prevLen * 2 ^ i = prevLen / 2 * 2 ^ (i + 1) := by
            have h2 : prevLen = 2 * (prevLen / 2) := by omega
            calc prevLen * 2 ^ i = 2 * (prevLen / 2) * 2 ^ i := by rw [← h2]
              _ = prevLen / 2 * 2 ^ (i + 1) := by ring
          have h3 : prevLen / 2 ≤ pl2 := by omega
          have := Nat.mul_le_mul_right (2 ^ (i + 1)) h3
          omega
        obtain ⟨hchain, hlen1⟩ := ih (i + 1) next2 pl2 rest1 hrest hl2 hev2 hcov2
        refine ⟨⟨by rw [hl2]; exact hev2, by rw [hl2]; exact hcov2, hchain⟩, ?_⟩
        simp [hlen1]

/-- The `ModeProofGenAndTreeBuild` streaming pass over a level chain appends one
sibling per level to every proof and keeps the path inside the bit window. -/
theorem updateProofsAll_shape (n : Nat) :
    ∀ (ls : List (List Bytes)) (i : Nat) (ps : List Proof),
      chainOK n i ls → ps.length = n →
      (∀ k, k < n → (nth ps k).path < 2 ^ min i 32) →
      (updateProofsAll ls i ps).length = n ∧
      ∀ k, k < n →
        (nth (updateProofsAll ls i ps) k).siblings.length =
          (nth ps k).siblings.length + ls.length ∧
        (nth (updateProofsAll ls i ps) k).path < 2 ^ min (i + ls.length) 32 := by
  intro ls
  induction ls with
  | nil =>
    intro i ps _ hn hp
    exact ⟨hn, fun k hk => ⟨by simp [updateProofsAll], by simpa [updateProofsAll] using hp k hk⟩⟩
  | cons lvl rest ih =>
    intro i ps hchain hn hp
    obtain ⟨hev, hcv, hchain1⟩ := hchain
    have hcv2 : ps.length ≤ (lvl.length + 1) / 2 * 2 * 2 ^ i := by
      rw [hn, show (lvl.length + 1) / 2 * 2 = lvl.length from by omega]
      exact hcv
    have hlen1 : (updateProofs lvl lvl.length i ps).length = n := by
      rw [updateProofs_length, hn]
    have hint : ∀ k, k < n →
        (nth (updateProofs lvl lvl.length i ps) k).siblings.length =
          (nth ps k).siblings.length + 1 ∧
        (nth (updateProofs lvl lvl.length i ps) k).path < 2 ^ min (i + 1) 32 := by
      intro k hk
      obtain ⟨_, sib, hsib⟩ := updateProofs_shape lvl lvl.length i ps hcv2 k
        (by rw [hn]; exact hk)
      by_cases hcond : k / 2 ^ i % 2 = 0
      · rw [if_pos hcond] at hsib
        rw [hsib]
        exact ⟨by simp [sibPathUpdate], pathStep_lt (hp k hk)⟩
      · rw [if_neg hcond] at hsib
        rw [hsib]
        exact ⟨by simp [sibUpdate], lt_of_lt_of_le (hp k hk) pow_min_le⟩
    have hres := ih (i + 1) (updateProofs lvl lvl.length i ps) hchain1 hlen1
      (fun k hk => (hint k hk).2)
    refine ⟨hres.1, fun k hk => ?_⟩
    obtain ⟨hs2, hp2⟩ := hres.2 k hk
    constructor
    · show (nth (updateProofsAll rest (i + 1) (updateProofs lvl lvl.length i ps)) k).siblings.length =
        (nth ps k).siblings.length + (lvl :: rest).length
      rw [hs2, (hint k hk).1, List.length_cons]
      omega
    · show (nth (updateProofsAll rest (i + 1) (updateProofs lvl lvl.length i ps)) k).path <
        2 ^ min (i + (lvl :: rest).length) 32
      rwa [show i + (lvl :: rest).length = i + 1 + rest.length from by simp; omega]

/-- C10: in `ModeProofGen` and `ModeProofGenAndTreeBuild`, `New` over `n ≥ 2`
blocks produces exactly one proof per block, each with exactly `Depth` siblings
and a path value strictly below `2 ^ Depth`. -/
theorem C10_thm (cfg : Config) (blocks : List DataBlock) (dummy : Nat → Bytes) (t : MerkleTree)
    (hn : 2 ≤ blocks.length)
    (hmode : cfg.mode = ModeProofGen ∨ cfg.mode = ModeProofGenAndTreeBuild)
    (hok : New (some cfg) blocks dummy = Except.ok t) :
    t.proofs.length = blocks.length ∧
    ∀ p ∈ t.proofs, p.siblings.length = t.depth ∧ p.path < 2 ^ t.depth := by
  have hlen1 : ¬ blocks.length ≤ 1 := by omega
  simp only [New, if_neg hlen1, Option.getD_some] at hok
  split at hok
  · exact absurd hok (by simp)
  · rename_i leaves hlg
    have hll : leaves.length = blocks.length := leafGen_length _ _ _ hlg
    have hd : 1 ≤ calTreeDepth blocks.length := calTreeDepth_pos _ hn
    rcases hmode with hm | hm
    · rw [hm, if_pos rfl] at hok
      split at hok
      · exact absurd hok (by simp)
      · rename_i root ps hpg
        injection hok with hok
        subst hok
        have hshape := proofGen_shape _ cfg.noDuplicates dummy leaves
          (calTreeDepth blocks.length) root ps hpg (by omega) hd
        constructor
        · show ps.length = blocks.length
          rw [hshape.1, hll]
        · intro p hp
          exact hshape.2 p hp
    · rw [hm, if_neg (by decide), if_neg (by decide), if_pos rfl] at hok
      split at hok
      · exact absurd hok (by simp)
      · rename_i tree root lm htb
        injection hok with hok
        subst hok
        simp only [treeBuild] at htb
        rcases hfix : fixOdd cfg.noDuplicates (dummy 0) leaves leaves.length with ⟨lvl0, P0⟩
        rw [hfix] at htb
        dsimp only at htb
        split at htb
        · exact absurd htb (by simp)
        · rename_i rest hrest
          split at htb
          · exact absurd htb (by simp)
          · rename_i root1 hroot
            injection htb with htb
            injection htb with ht1 htb
            injection htb with ht2 ht3
            subst ht1 ht2 ht3
            have hl0 : lvl0.length = P0 := by
              have h := fixOdd_fst_length cfg.noDuplicates (dummy 0) leaves leaves.length rfl
              rwa [hfix] at h
            have hev : P0 % 2 = 0 := by
              have h := fixOdd_snd_even cfg.noDuplicates (dummy 0) leaves leaves.length
              rwa [hfix] at h
            have hge : leaves.length ≤ P0 := by
              have h := fixOdd_snd_ge cfg.noDuplicates (dummy 0) leaves leaves.length
              rwa [hfix] at h
            have hchain := treeLevelsFrom_chain _ cfg.sortPairs cfg.noDuplicates dummy
              blocks.length (calTreeDepth blocks.length - 1) 0 lvl0 P0 rest hrest hl0 hev
              (by rw [pow_zero, Nat.mul_one]; omega)
            have hchain0 : chainOK blocks.length 0 (lvl0 :: rest) :=
              ⟨by rw [hl0]; exact hev, by rw [pow_zero, Nat.mul_one, hl0]; omega, hchain.1⟩
            have htl : (lvl0 :: rest).length = calTreeDepth blocks.length := by
              rw [List.length_cons, hchain.2]
              omega
            have hinitp : ∀ k, k < blocks.length →
                (nth (initProofs leaves.length) k).path < 2 ^ min 0 32 := by
              intro k hk
              rw [initProofs_nth leaves.length k (by omega)]
              simp
            have hres := updateProofsAll_shape blocks.length (lvl0 :: rest) 0
              (initProofs leaves.length) hchain0 (by rw [initProofs_length]; omega) hinitp
            constructor
            · exact hres.1
            · intro p hp
              obtain ⟨k, hk, hnth⟩ := mem_nth _ p hp
              rw [hres.1] at hk
              obtain ⟨hs, hpp⟩ := hres.2 k hk
              rw [hnth] at hs hpp
              rw [initProofs_nth leaves.length k (by omega)] at hs
              constructor
              · show p.siblings.length = calTreeDepth blocks.length
                rw [hs]
                simpa using htl
              · show p.path < 2 ^ calTreeDepth blocks.length
                rw [show 0 + (lvl0 :: rest).length = calTreeDepth blocks.length from by
                  rw [Nat.zero_add, htl]] at hpp
                exact lt_of_lt_of_le hpp (pow_min_le_pow _)

/-- C10 (witness): the two-leaf `ModeProofGen` tree over blocks `[0x00]`,
`[0x04]`: both proofs have exactly `Depth = 1` sibling and path below `2`. -/
theorem C10_witness :
    (Proof.mk [[4]] 1).siblings.length = 1 ∧ (Proof.mk [[4]] 1).path < 2 ^ 1 := by
  have h := C10_thm { hashFunc := some tHash, mode := ModeProofGen } [blkA, blkB4] dZero
    { hashFunc := tHash, mode := ModeProofGen, noDuplicates := false, sortLeaves := false,
      sortPairs := false, tree := [], root := [6], leaves := [[0], [4]],
      proofs := [Proof.mk [[4]] 1, Proof.mk [[0]] 0], depth := 1, leafMap := [] }
    (by decide) (Or.inl rfl) rfl
  exact h.2 (Proof.mk [[4]] 1) (by decide)

end merkle
